import Mathlib

/-!
# metastring: compile-time strings as types

Shallow embedding of `metastring.hpp` (namespace `meta`).

* A `char` is modelled by its integer value, an `Int`.  Whether plain `char` is signed is
  implementation-defined, so the range of a `char` is a parameter `char_signed`
  wherever the source converts an integer to a `char`.
* The type `meta::string<args...>` is determined by its parameter pack, so it is
  modelled by the list `args`.
* Everything in the header is evaluated during translation.  An expression that
  is not a constant expression (signed overflow, an out-of-range read, a
  narrowing conversion, flowing off the end of a value-returning function) or a
  template recursion without a base case makes the program ill-formed: the model
  returns `none` there.
-/

namespace metastring

/-! ## Characters and `std::intmax_t` -/

/-- Smallest value of `char` (`CHAR_MIN`). -/
def CHAR_MIN (char_signed : Bool) : Int := if char_signed then -128 else 0

/-- Largest value of `char` (`CHAR_MAX`). -/
def CHAR_MAX (char_signed : Bool) : Int := if char_signed then 127 else 255

/-- Smallest value of `std::intmax_t` (64 bit). -/
def INTMAX_MIN : Int := -9223372036854775808

/-- Largest value of `std::intmax_t` (64 bit). -/
def INTMAX_MAX : Int := 9223372036854775807

/-- The value of an `std::intmax_t` arithmetic expression whose mathematical
result is `v`: overflow is undefined behaviour, so not a constant expression. -/
def intmax_checked (v : Int) : Option Int :=
  if INTMAX_MIN ≤ v ∧ v ≤ INTMAX_MAX then some v else none

/-- An integer constant used as a `char` template argument: a converted constant
expression, ill-formed when the value does not fit (narrowing). -/
def to_char (char_signed : Bool) (v : Int) : Option Int :=
  if CHAR_MIN char_signed ≤ v ∧ v ≤ CHAR_MAX char_signed then some v else none

/-! ## `meta::string` -/

/-- The type `string<args...>`, given by its parameter pack. -/
abbrev string := List Int

/-- Member `c_str`: `char c_str[sizeof...(args) + 1] = {args..., '\0'}`. -/
def c_str (s : string) : List Int := s ++ [0]

/-- Member `len()`: `sizeof...(args)`. -/
def len (s : string) : Nat := s.length

/-- The `operator+` of two strings: `string<lhs..., rhs...>`. -/
def concat (a b : string) : string := a ++ b

/-! ## Integer to string -/

/-- The function `impl::abs_val`: `x < 0 ? -x : x`. -/
def abs_val (x : Int) : Option Int :=
  if x < 0 then intmax_checked (-x) else some x

/-- The function `impl::num_digits`:
`x < 0 ? 1 + num_digits(-x) : x < 10 ? 1 : 1 + num_digits(x / 10)`. -/
def num_digits (x : Int) : Option Int :=
  if x < 0 then
    if INTMAX_MIN ≤ -x ∧ -x ≤ INTMAX_MAX then
      (num_digits (-x)).bind fun r => intmax_checked (1 + r)
    else none
  else if x < 10 then some 1
  else (num_digits (x.tdiv 10)).bind fun r => intmax_checked (1 + r)
termination_by x.natAbs + (if x < 0 then 1 else 0)
decreasing_by
  · simp_wf
    split_ifs <;> omega
  · have h10 : x.tdiv 10 = x / 10 := Int.tdiv_eq_ediv (by omega) (by omega)
    rw [h10]
    simp_wf
    split_ifs <;> omega

/-- The class template `impl::int_to_str_impl<size, x, args...>` and its member
`type`.  The partial specialisations for `size == 2` and `size == 1` are the
base cases; the primary template derives from
`int_to_str_impl<size - 1, x / 10, '0' + abs_val(x) % 10, args...>`.
For `size <= 0` the primary template never reaches a base case, so no type is
produced. -/
def int_to_str_impl (char_signed : Bool) (size x : Int) (args : List Int) :
    Option string :=
  if size = 2 then
    (to_char char_signed (if x < 0 then 45 else 48 + x.tdiv 10)).bind fun c0 =>
    (abs_val x).bind fun a =>
    (to_char char_signed (48 + a.tmod 10)).bind fun c1 =>
    some (c0 :: c1 :: args)
  else if size = 1 then
    (to_char char_signed (48 + x)).bind fun c0 => some (c0 :: args)
  else if h0 : size ≤ 0 then none
  else
    (abs_val x).bind fun a =>
    (to_char char_signed (48 + a.tmod 10)).bind fun c =>
    int_to_str_impl char_signed (size - 1) (x.tdiv 10) (c :: args)
termination_by size.toNat
decreasing_by
  simp_wf
  omega

/-- The alias `itom_t<x>`: `impl::int_to_str_impl<impl::num_digits(x), x>::type`. -/
def itom_t (char_signed : Bool) (x : Int) : Option string :=
  (num_digits x).bind fun n => int_to_str_impl char_signed n x []

/-! ## `meta::wrap`, `impl::explode`, `stom_t` -/

/-- The class template `wrap<N>`: its parameter `N` and its member
`char buf[N - 1]`. -/
structure wrap where
  N : Nat
  buf : List Int
deriving DecidableEq

/-- Member `wrap<N>::size()`: `N - 1`. -/
def wrap.size (w : wrap) : Nat := w.N - 1

/-- The loop of both constructors of `wrap<N>`:
`for (std::size_t i = 0; i < N - 1; ++i) buf[i] = s[i];`, from index `i` on.
Reading `s[i]` outside the array `s` is not a constant expression. -/
def wrap_ctor_loop (N : Nat) (s : List Int) (i : Nat) (buf : List Int) :
    Option (List Int) :=
  if i < N - 1 then
    match s[i]? with
    | none => none
    | some c => wrap_ctor_loop N s (i + 1) (buf.set i c)
  else some buf
termination_by N - 1 - i

/-- A constructor of `wrap<N>` applied to the character array `s`: `buf` starts
value-initialised (`char buf[N - 1]{}`) and is filled by the loop.  There is no
`wrap<0>`: its `buf` would have a negative bound. -/
def wrap_ctor (N : Nat) (s : List Int) : Option wrap :=
  if N = 0 then none
  else (wrap_ctor_loop N s 0 (List.replicate (N - 1) 0)).map fun b => ⟨N, b⟩

/-- Deduction guide `wrap(char const (&)[N]) -> wrap<N>` followed by the
constructor `wrap(char const* s)`: `s` is the whole array, `N` its bound. -/
def wrap_of_array (s : List Int) : Option wrap := wrap_ctor s.length s

/-- Deduction guide `wrap(string<args...>) -> wrap<sizeof...(args) + 1>` followed
by the constructor `wrap(string<args...> s)`; there `s[i]` converts `s` to
`char const*`, which is `c_str`. -/
def wrap_of_string (s : string) : Option wrap := wrap_ctor (s.length + 1) (c_str s)

/-- The class template `impl::explode<S, N, args...>` and its member `type`:
the primary template derives from
`explode<S, N - 1, S::c_str.buf[N - 1], args...>`, the specialisation for
`N == 0` has `type = string<args...>`. -/
def explode (S : wrap) : Nat → List Int → Option string
  | 0, args => some args
  | N + 1, args =>
    match S.buf[N]? with
    | none => none
    | some c => explode S N (c :: args)

/-- The alias `unwrap_t<wrapper>`:
`impl::explode<impl::wrap_type<wrapper>, wrapper.size()>::type`. -/
def unwrap_t (wrapper : wrap) : Option string := explode wrapper wrapper.size []

/-- The alias `stom_t<wrapper>` applied to a character array `s` (a string
literal with its terminator): `unwrap_t<wrap(s)>`. -/
def stom_t (s : List Int) : Option string := (wrap_of_array s).bind unwrap_t

/-! ## `meta::compare` -/

/-- The loop of the general overload of `compare`, from index `i` on:
`for (; i < sizeof...(lhs); ++i)` returning `-1` when `a.c_str[i] < b.c_str[i]`
and `1` when `a.c_str[i] > b.c_str[i]`.  After the loop the function body ends
without a `return`: no value. -/
def compare_loop (a b : string) (i : Nat) : Option Int :=
  if i < a.length then
    match (c_str a)[i]?, (c_str b)[i]? with
    | some x, some y =>
      if x < y then some (-1)
      else if x > y then some 1
      else compare_loop a b (i + 1)
    | _, _ => none
  else none
termination_by a.length - i

/-- The general overload `compare(string<lhs...> a, string<rhs...> b)`. -/
def compare_general (a b : string) : Option Int :=
  if a.length < b.length then some (-1)
  else if a.length > b.length then some 1
  else compare_loop a b 0

/-- The overload set `compare`: for two arguments of the same type
`string<args...>` the overload `compare(string<args...>, string<args...>)`,
which returns `0`, is the more specialised one and is chosen; every other pair
of arguments is only accepted by the general overload. -/
def compare (a b : string) : Option Int :=
  if a = b then some 0 else compare_general a b

/-! ## Variable templates and the example's `my_class` -/

/-- The variable template `unwrap_v<wrapper>`: `unwrap_t<wrapper>{}`, the
object of the type `unwrap_t<wrapper>`. -/
def unwrap_v (wrapper : wrap) : Option string := unwrap_t wrapper

/-- The variable template `itom_v<x>`: `itom_t<x>{}`. -/
def itom_v (char_signed : Bool) (x : Int) : Option string := itom_t char_signed x

/-- The member `my_class<Str>::value` of `example.cpp`:
`static constexpr meta::string value = meta::unwrap_v<Str>`. -/
def my_class_value (Str : wrap) : Option string := unwrap_v Str

/-- The object `my_class<instance>{}.value` of `example.cpp` for a string object
`instance`, here `inst`: the template argument is converted to `wrap` by
`wrap(string<args...>)`. -/
def my_class_of_string (inst : string) : Option string :=
  (wrap_of_string inst).bind my_class_value

/-- Number of instantiations of the primary template of `impl::explode` below
`explode<S, N, args...>` until the specialisation for `N == 0` is reached. -/
def explode_depth (S : wrap) : Nat → List Int → Option Nat
  | 0, _ => some 0
  | N + 1, args =>
    match S.buf[N]? with
    | none => none
    | some c => (explode_depth S N (c :: args)).map fun d => d + 1

/-! ## Notions of the specification -/

/-- Decimal digits of a natural number, most significant first, as characters;
`0` is written `0`. -/
def decimal_digits (n : Nat) : List Int :=
  if n = 0 then [48] else (Nat.digits 10 n).reverse.map fun d => (48 + d : Int)

/-- Canonical decimal representation of an integer: a `-` exactly for negative
values, then the decimal digits of the absolute value. -/
def canonical_decimal (x : Int) : List Int :=
  if x < 0 then 45 :: decimal_digits x.natAbs else decimal_digits x.natAbs

/-- The C library function `strlen` on a character array: the number of
characters before the first `'\0'`. -/
def strlen (s : List Int) : Nat := (s.takeWhile fun c => decide (c ≠ 0)).length

/-- Code point of a character: its value as an unsigned 8-bit number. -/
def code_point (c : Int) : Int := c % 256

/-- Whether `c` is a value of type `char`. -/
def is_char (char_signed : Bool) (c : Int) : Prop :=
  CHAR_MIN char_signed ≤ c ∧ c ≤ CHAR_MAX char_signed

instance (char_signed : Bool) (c : Int) : Decidable (is_char char_signed c) := by
  unfold is_char
  infer_instance


/-- The invariant of a character sequence `string<c1, ..., cn>` with pack
`args = c1, ..., cn`: `len()` is `n`, the array `c_str` has `len() + 1` elements,
`c_str[i]` is the `i`-th character of the pack for `i < len()`, and
`c_str[len()]` is the terminator. -/
def string_invariant (args : List Int) : Prop :=
  len args = args.length ∧ (c_str args).length = len args + 1 ∧
    (∀ i, i < len args → (c_str args)[i]? = args[i]?) ∧
    (c_str args)[len args]? = some 0

/-! ## Auxiliary description of the character scan -/

/-- Scan of two lists from their heads up to the first position with different
characters: `-1` or `1` by the order of the characters there, no value when the
scan reaches the end of a list. -/
def first_diff : List Int → List Int → Option Int
  | x :: xs, y :: ys =>
    if x < y then some (-1) else if x > y then some 1 else first_diff xs ys
  | _, _ => none

/-! ## Decimal digits -/

theorem decimal_digits_lt_ten (n : Nat) (h : n < 10) : decimal_digits n = [48 + (n : Int)] := by
  unfold decimal_digits
  split_ifs with h0
  · subst h0; rfl
  · rw [Nat.digits_of_lt 10 n h0 h]; rfl

theorem decimal_digits_ge_ten (n : Nat) (h : 10 ≤ n) :
    decimal_digits n = decimal_digits (n / 10) ++ [48 + ((n % 10 : Nat) : Int)] := by
  have h0 : n ≠ 0 := by omega
  have h1 : n / 10 ≠ 0 := by omega
  unfold decimal_digits
  rw [if_neg h0, if_neg h1, Nat.digits_def' (by norm_num) (by omega)]
  simp

theorem decimal_digits_length_pos (n : Nat) : 1 ≤ (decimal_digits n).length := by
  rcases Nat.lt_or_ge n 10 with h | h
  · rw [decimal_digits_lt_ten n h]; simp
  · rw [decimal_digits_ge_ten n h]; simp

theorem decimal_digits_length_le (n : Nat) : 2 * (decimal_digits n).length ≤ n + 2 := by
  induction n using Nat.strong_induction_on with
  | _ n ih =>
    rcases Nat.lt_or_ge n 10 with h | h
    · rw [decimal_digits_lt_ten n h]; simp
    · rw [decimal_digits_ge_ten n h]
      have := ih (n / 10) (by omega)
      simp only [List.length_append, List.length_singleton]
      omega

theorem intmax_checked_of_mem (v : Int) (h1 : INTMAX_MIN ≤ v) (h2 : v ≤ INTMAX_MAX) :
    intmax_checked v = some v := by
  unfold intmax_checked
  rw [if_pos ⟨h1, h2⟩]

theorem to_char_digit (sgn : Bool) (d : Nat) (h : d < 10) :
    to_char sgn (48 + (d : Int)) = some (48 + (d : Int)) := by
  unfold to_char CHAR_MIN CHAR_MAX
  cases sgn <;> simp <;> omega

theorem num_digits_nat (n : Nat) (h : (n : Int) ≤ INTMAX_MAX) :
    num_digits n = some ((decimal_digits n).length : Int) := by
  induction n using Nat.strong_induction_on with
  | _ n ih =>
    rw [num_digits]
    have hn : ¬ ((n : Int) < 0) := by omega
    rw [if_neg hn]
    rcases Nat.lt_or_ge n 10 with h10 | h10
    · rw [if_pos (by omega), decimal_digits_lt_ten n h10]; rfl
    · rw [if_neg (by omega)]
      have hdiv : (n : Int).tdiv 10 = ((n / 10 : Nat) : Int) := by
        rw [Int.ofNat_tdiv]; rfl
      have hle := decimal_digits_length_le (n / 10)
      unfold INTMAX_MAX at h
      rw [hdiv, ih (n / 10) (by omega) (by unfold INTMAX_MAX; omega), decimal_digits_ge_ten n h10]
      simp only [Option.bind, List.length_append, List.length_singleton]
      rw [intmax_checked_of_mem _ (by unfold INTMAX_MIN; omega) (by unfold INTMAX_MAX; omega)]
      congr 1
      push_cast
      ring

theorem abs_val_nat (n : Nat) : abs_val n = some (n : Int) := by
  unfold abs_val
  rw [if_neg (by omega)]

theorem abs_val_neg_nat (n : Nat) (h : (n : Int) ≤ INTMAX_MAX) :
    abs_val (-(n : Int)) = some (n : Int) := by
  unfold abs_val
  unfold INTMAX_MAX at h
  split_ifs with h0
  · rw [neg_neg]
    exact intmax_checked_of_mem _ (by unfold INTMAX_MIN; omega) (by unfold INTMAX_MAX; omega)
  · have : (n : Int) = 0 := by omega
    rw [this]; rfl

theorem nat_tmod_ten (n : Nat) : (n : Int).tmod 10 = ((n % 10 : Nat) : Int) := by
  rw [Int.ofNat_tmod]; rfl

theorem nat_tdiv_ten (n : Nat) : (n : Int).tdiv 10 = ((n / 10 : Nat) : Int) := by
  rw [Int.ofNat_tdiv]; rfl

theorem neg_nat_tdiv_ten (n : Nat) : (-(n : Int)).tdiv 10 = -((n / 10 : Nat) : Int) := by
  rw [Int.neg_tdiv, nat_tdiv_ten]

theorem int_to_str_impl_nat (sgn : Bool) (n : Nat) (acc : List Int) :
    int_to_str_impl sgn ((decimal_digits n).length : Int) n acc
      = some (decimal_digits n ++ acc) := by
  induction n using Nat.strong_induction_on generalizing acc with
  | _ n ih =>
    rcases Nat.lt_or_ge n 10 with h10 | h10
    · rw [decimal_digits_lt_ten n h10, int_to_str_impl]
      simp [to_char_digit sgn n h10]
    · rcases Nat.lt_or_ge n 100 with h100 | h100
      · rw [decimal_digits_ge_ten n h10, decimal_digits_lt_ten (n / 10) (by omega),
          int_to_str_impl]
        have hneg : ¬ ((n : Int) < 0) := by omega
        have hc0 := to_char_digit sgn (n / 10) (by omega)
        have hc1 := to_char_digit sgn (n % 10) (by omega)
        push_cast at hc0 hc1
        simp [hneg, abs_val_nat, nat_tmod_ten, nat_tdiv_ten, hc0, hc1]
      · have hrec := ih (n / 10) (by omega) ((48 + ((n % 10 : Nat) : Int)) :: acc)
        have hlen : (decimal_digits n).length = (decimal_digits (n / 10)).length + 1 := by
          rw [decimal_digits_ge_ten n h10]; simp
        have hlen2 : 2 ≤ (decimal_digits (n / 10)).length := by
          rw [decimal_digits_ge_ten (n / 10) (by omega)]
          have := decimal_digits_length_pos (n / 10 / 10)
          simp only [List.length_append, List.length_singleton]
          omega
        rw [int_to_str_impl, hlen]
        rw [if_neg (by omega), if_neg (by omega), dif_neg (by omega)]
        simp only [abs_val_nat, Option.bind, nat_tmod_ten,
          to_char_digit sgn (n % 10) (by omega), nat_tdiv_ten]
        have hsz : (((decimal_digits (n / 10)).length + 1 : Nat) : Int) - 1
            = ((decimal_digits (n / 10)).length : Int) := by
          push_cast; ring
        rw [hsz, hrec, decimal_digits_ge_ten n h10]
        simp

theorem int_to_str_impl_neg_nat (sgn : Bool) (n : Nat) (hpos : 0 < n)
    (h : (n : Int) ≤ INTMAX_MAX) (acc : List Int) :
    int_to_str_impl sgn (1 + ((decimal_digits n).length : Int)) (-(n : Int)) acc
      = some (45 :: decimal_digits n ++ acc) := by
  induction n using Nat.strong_induction_on generalizing acc with
  | _ n ih =>
    have hneg : (-(n : Int)) < 0 := by omega
    rcases Nat.lt_or_ge n 10 with h10 | h10
    · rw [decimal_digits_lt_ten n h10, int_to_str_impl]
      have h45 : to_char sgn 45 = some 45 := by
        unfold to_char CHAR_MIN CHAR_MAX
        cases sgn <;> simp
      have hmod : n % 10 = n := by omega
      simp [hneg, abs_val_neg_nat n h, nat_tmod_ten, h45, hmod, to_char_digit sgn n h10]
    · have hle : ((n / 10 : Nat) : Int) ≤ INTMAX_MAX := by
        unfold INTMAX_MAX at h ⊢
        omega
      have hrec := ih (n / 10) (by omega) (by omega) hle ((48 + ((n % 10 : Nat) : Int)) :: acc)
      have hlen : (decimal_digits n).length = (decimal_digits (n / 10)).length + 1 := by
        rw [decimal_digits_ge_ten n h10]; simp
      have hlen1 := decimal_digits_length_pos (n / 10)
      rw [int_to_str_impl, hlen]
      rw [if_neg (by omega), if_neg (by omega), dif_neg (by omega)]
      simp only [abs_val_neg_nat n h, Option.bind, nat_tmod_ten,
        to_char_digit sgn (n % 10) (by omega), neg_nat_tdiv_ten]
      have hsz : 1 + (((decimal_digits (n / 10)).length + 1 : Nat) : Int) - 1
          = 1 + ((decimal_digits (n / 10)).length : Int) := by
        push_cast; ring
      rw [hsz, hrec, decimal_digits_ge_ten n h10]
      simp

theorem num_digits_neg_nat (n : Nat) (hpos : 0 < n) (h : (n : Int) ≤ INTMAX_MAX) :
    num_digits (-(n : Int)) = some (1 + ((decimal_digits n).length : Int)) := by
  have hle := decimal_digits_length_le n
  rw [num_digits, if_pos (by omega), neg_neg, num_digits_nat n h]
  unfold INTMAX_MAX at h
  rw [if_pos ⟨by unfold INTMAX_MIN; omega, by unfold INTMAX_MAX; omega⟩]
  simp only [Option.bind]
  exact intmax_checked_of_mem _ (by unfold INTMAX_MIN; omega) (by unfold INTMAX_MAX; omega)

theorem num_digits_intmax_min : num_digits INTMAX_MIN = none := by
  rw [num_digits]
  simp [INTMAX_MIN, INTMAX_MAX]

theorem itom_t_of_gt_min (sgn : Bool) (x : Int) (hlo : INTMAX_MIN < x) (hhi : x ≤ INTMAX_MAX) :
    itom_t sgn x = some (canonical_decimal x) := by
  unfold itom_t canonical_decimal
  rcases lt_or_le x 0 with hx | hx
  · obtain ⟨n, rfl⟩ : ∃ n : Nat, x = -(n : Int) := ⟨x.natAbs, by omega⟩
    have hn : (n : Int) ≤ INTMAX_MAX := by
      unfold INTMAX_MIN at hlo
      unfold INTMAX_MAX
      omega
    rw [num_digits_neg_nat n (by omega) hn, if_pos hx]
    simp only [Option.bind, Int.natAbs_neg, Int.natAbs_ofNat]
    rw [int_to_str_impl_neg_nat sgn n (by omega) hn []]
    simp
  · obtain ⟨n, rfl⟩ : ∃ n : Nat, x = (n : Int) := ⟨x.toNat, by omega⟩
    rw [num_digits_nat n hhi, if_neg (by omega)]
    simp only [Option.bind, Int.natAbs_ofNat]
    rw [int_to_str_impl_nat sgn n []]
    simp

/-- C1: `itom_t<x>` is the canonical decimal representation of `x` for every
`std::intmax_t` value `x` except the most negative one, where `num_digits(x)`
negates `x`, overflows and no type is produced. -/
theorem itom_t_canonical_except_intmax_min (char_signed : Bool) :
    itom_t char_signed INTMAX_MIN = none ∧
    ∀ x : Int, INTMAX_MIN < x → x ≤ INTMAX_MAX →
      itom_t char_signed x = some (canonical_decimal x) := by
  refine ⟨?_, fun x hlo hhi => itom_t_of_gt_min char_signed x hlo hhi⟩
  unfold itom_t
  rw [num_digits_intmax_min]
  rfl

/-- C1, the documented examples: `itom_t<-8>` is `string<'-', '8'>`,
`itom_t<0>` is `string<'0'>` and `itom_t<4>` is `string<'4'>`. -/
theorem itom_t_canonical_examples :
    itom_t true (-8) = some [45, 56] ∧ itom_t true 0 = some [48] ∧
      itom_t true 4 = some [52] := by
  have h := (itom_t_canonical_except_intmax_min true).2
  refine ⟨?_, ?_, ?_⟩
  · rw [h (-8) (by decide) (by decide)]
    simp [canonical_decimal, decimal_digits]
  · rw [h 0 (by decide) (by decide)]
    simp [canonical_decimal, decimal_digits]
  · rw [h 4 (by decide) (by decide)]
    simp [canonical_decimal, decimal_digits]

/-- C2: for `x = INTMAX_MIN` the negation `-x` in `abs_val` and in `num_digits`
overflows `std::intmax_t`, so `abs_val(x)` and `num_digits(x)` have no value
(in particular `num_digits(x)` is not `20`) and `itom_t<x>` is not a type (in
particular not `"-9223372036854775808"`). -/
theorem itom_t_intmax_min_overflow (char_signed : Bool) :
    intmax_checked (-INTMAX_MIN) = none ∧
    abs_val INTMAX_MIN = none ∧
    num_digits INTMAX_MIN = none ∧
    num_digits INTMAX_MIN ≠ some 20 ∧
    itom_t char_signed INTMAX_MIN = none ∧
    itom_t char_signed INTMAX_MIN ≠ some (canonical_decimal INTMAX_MIN) := by
  have h1 : intmax_checked (-INTMAX_MIN) = none := by decide
  have h2 : abs_val INTMAX_MIN = none := by decide
  have h3 : itom_t char_signed INTMAX_MIN = none := by
    unfold itom_t
    rw [num_digits_intmax_min]
    rfl
  refine ⟨h1, h2, num_digits_intmax_min, ?_, h3, ?_⟩
  · rw [num_digits_intmax_min]; simp
  · rw [h3]; simp

/-! ## Literal capture and explosion -/

theorem take_set_same (l : List Int) (i : Nat) (c : Int) :
    (l.set i c).take i = l.take i :=
  List.ext_getElem? fun j => by
    rw [List.getElem?_take, List.getElem?_take]
    split
    · rw [List.getElem?_set_ne (by omega)]
    · rfl

theorem wrap_ctor_loop_eq (N : Nat) (s : List Int) (hs : N - 1 ≤ s.length) :
    ∀ (k i : Nat) (buf : List Int), N - 1 - i = k → i ≤ N - 1 → buf.length = N - 1 →
      buf.take i = s.take i → wrap_ctor_loop N s i buf = some (s.take (N - 1)) := by
  intro k
  induction k with
  | zero =>
    intro i buf hk hi hlen htake
    have hiN : i = N - 1 := by omega
    rw [wrap_ctor_loop, if_neg (by omega)]
    rw [← hiN, ← htake, List.take_of_length_le (by omega)]
  | succ k ih =>
    intro i buf hk hi hlen htake
    have hlt : i < s.length := by omega
    rw [wrap_ctor_loop, if_pos (by omega), List.getElem?_eq_getElem hlt]
    simp only
    apply ih (i + 1) (buf.set i s[i]) (by omega) (by omega) (by simpa using hlen)
    rw [List.take_succ, List.take_succ, take_set_same, htake,
      List.getElem?_set_self (by omega), List.getElem?_eq_getElem hlt]

theorem wrap_ctor_eq (N : Nat) (s : List Int) (hN : 1 ≤ N) (hs : N - 1 ≤ s.length) :
    wrap_ctor N s = some ⟨N, s.take (N - 1)⟩ := by
  unfold wrap_ctor
  rw [if_neg (by omega),
    wrap_ctor_loop_eq N s hs (N - 1) 0 _ (by omega) (by omega) (by simp) (by simp)]
  rfl

theorem explode_eq (S : wrap) (k : Nat) (hk : k ≤ S.buf.length) (acc : List Int) :
    explode S k acc = some (S.buf.take k ++ acc) := by
  induction k generalizing acc with
  | zero => simp [explode]
  | succ k ih =>
    have hlt : k < S.buf.length := by omega
    rw [explode, List.getElem?_eq_getElem hlt]
    simp only
    rw [ih (by omega), List.take_succ, List.getElem?_eq_getElem hlt]
    simp only [Option.toList, List.append_assoc, List.singleton_append]

theorem stom_t_eq_dropLast (s : List Int) (hs : s ≠ []) : stom_t s = some s.dropLast := by
  have hlen : 1 ≤ s.length := List.length_pos.mpr hs
  unfold stom_t wrap_of_array
  rw [wrap_ctor_eq s.length s hlen (by omega)]
  simp only [Option.bind, unwrap_t, wrap.size]
  rw [explode_eq _ _ (by simp), List.dropLast_eq_take]
  simp

theorem literal_eq (s : List Int) (hterm : s.getLast? = some 0) : s.dropLast ++ [0] = s :=
  List.dropLast_append_getLast? 0 (by simp [hterm])

/-- C3: for a string literal `s` of bound `N >= 1`, `stom_t<s>` is the string
of the first `N - 1` characters of `s` in order: its `len()` is `N - 1`, its
`i`-th character is `s[i]`, and its `c_str` array is `s` itself, terminator
included. -/
theorem stom_t_literal (s : List Int) (N : Nat) (hN : s.length = N) (h1 : 1 ≤ N)
    (hterm : s.getLast? = some 0) :
    ∃ t : string, stom_t s = some t ∧ t = s.take (N - 1) ∧ len t = N - 1 ∧
      (∀ i, i < N - 1 → t[i]? = s[i]?) ∧ c_str t = s := by
  have hs : s ≠ [] := by
    intro h
    rw [h] at hN
    simp at hN
    omega
  refine ⟨s.dropLast, stom_t_eq_dropLast s hs, ?_, ?_, ?_, ?_⟩
  · rw [List.dropLast_eq_take, hN]
  · simp [len, hN]
  · intro i hi
    rw [List.dropLast_eq_take, List.getElem?_take, hN, if_pos hi]
  · exact literal_eq s hterm

/-- C3, the documented example and the empty literal: `stom_t<"abcd">` is
`string<'a', 'b', 'c', 'd'>` with `c_str` equal to `"abcd"`, and `stom_t<"">` is
`string<>`. -/
theorem stom_t_literal_examples :
    (∃ t : string, stom_t [97, 98, 99, 100, 0] = some t ∧ t = [97, 98, 99, 100] ∧ len t = 4 ∧
      (∀ i, i < 4 → t[i]? = [97, 98, 99, 100, (0 : Int)][i]?) ∧
      c_str t = [97, 98, 99, 100, 0]) ∧
    (∃ t : string, stom_t [0] = some t ∧ t = [] ∧ len t = 0 ∧
      (∀ i, i < 0 → t[i]? = [(0 : Int)][i]?) ∧ c_str t = [0]) :=
  ⟨stom_t_literal [97, 98, 99, 100, 0] 5 rfl (by decide) rfl,
   stom_t_literal [0] 1 rfl (by decide) rfl⟩

theorem strlen_literal (cs : List Int) :
    strlen (cs ++ [0]) ≤ cs.length ∧ (strlen (cs ++ [0]) = cs.length ↔ (0 : Int) ∉ cs) := by
  induction cs with
  | nil => simp [strlen]
  | cons c cs ih =>
    unfold strlen at ih ⊢
    by_cases hc : c = 0
    · subst hc
      simp
    · have hc2 : ¬ (0 = c) := fun h => hc h.symm
      simp only [List.cons_append, ne_eq, hc, not_false_eq_true, decide_True,
        List.takeWhile_cons_of_pos, List.length_cons, add_le_add_iff_right, add_left_inj,
        List.mem_cons, hc2, false_or]
      exact ih

/-- C4, as the code has it: for a string literal `s` of bound `N`,
`stom_t<s>::len()` is `N - 1`, the number of characters of `s` in front of its
terminator, embedded `'\0'` characters counted; `strlen(s)` is never larger, and
the two are equal exactly when `s` has no embedded `'\0'`. -/
theorem stom_t_len_literal (s : List Int) (hterm : s.getLast? = some 0) :
    ∃ t : string, stom_t s = some t ∧ len t = s.length - 1 ∧ strlen s ≤ len t ∧
      (len t = strlen s ↔ (0 : Int) ∉ s.dropLast) := by
  have hs : s ≠ [] := by
    intro h
    rw [h] at hterm
    simp at hterm
  have hl := strlen_literal s.dropLast
  rw [literal_eq s hterm] at hl
  refine ⟨s.dropLast, stom_t_eq_dropLast s hs, by simp [len], by simpa [len] using hl.1, ?_⟩
  rw [← hl.2]
  simp only [len]
  exact eq_comm

/-- C4, the documented example: `"abcd"` has no embedded `'\0'` and
`stom_t<"abcd">::len()` is `4`, which is `strlen("abcd")`. -/
theorem stom_t_len_literal_example :
    ∃ t : string, stom_t [97, 98, 99, 100, 0] = some t ∧ len t = 5 - 1 ∧
      strlen [97, 98, 99, 100, 0] ≤ len t ∧
      (len t = strlen [97, 98, 99, 100, 0] ↔ (0 : Int) ∉ [97, 98, 99, 100]) :=
  stom_t_len_literal [97, 98, 99, 100, 0] rfl

/-- C4 fails for a literal with an embedded `'\0'`: for `"a\0b"` (bound 4)
`stom_t` gives `string<'a', '\0', 'b'>` with `len() == 3`, while `strlen` is
`1`. -/
theorem stom_t_len_ne_strlen :
    [97, 0, 98, (0 : Int)].getLast? = some 0 ∧
    stom_t [97, 0, 98, 0] = some [97, 0, 98] ∧ len [97, 0, 98] = 3 ∧
    strlen [97, 0, 98, 0] = 1 ∧
    ¬ (∀ s : List Int, s.getLast? = some 0 → ∀ t, stom_t s = some t → len t = strlen s) := by
  have h1 : stom_t [97, 0, 98, 0] = some [97, 0, 98] := stom_t_eq_dropLast _ (by simp)
  have h2 : strlen [97, 0, 98, 0] = 1 := by decide
  refine ⟨rfl, h1, rfl, h2, ?_⟩
  intro h
  have h3 := h [97, 0, 98, 0] rfl [97, 0, 98] h1
  rw [h2] at h3
  simp [len] at h3

/-! ## Concatenation -/

/-- C5: `a + b` is the string of the characters of `a` followed by those of
`b`; its `len()` is `a.len() + b.len()` and its `c_str` array is the characters
of `a`, then those of `b`, then one terminator. -/
theorem concat_spec (a b : string) :
    concat a b = a ++ b ∧ len (concat a b) = len a + len b ∧
      c_str (concat a b) = a ++ b ++ [0] ∧
      (c_str (concat a b)).length = len a + len b + 1 ∧
      (∀ i, i < len a → (c_str (concat a b))[i]? = a[i]?) ∧
      (∀ i, i < len b → (c_str (concat a b))[len a + i]? = b[i]?) ∧
      (c_str (concat a b))[len a + len b]? = some 0 := by
  refine ⟨rfl, by simp [concat, len], rfl, by simp [concat, len, c_str, Nat.add_assoc], ?_, ?_, ?_⟩
  · intro i hi
    unfold len at hi
    simp only [c_str, concat, List.append_assoc]
    rw [List.getElem?_append_left hi]
  · intro i hi
    unfold len at hi ⊢
    simp only [c_str, concat, List.append_assoc]
    rw [List.getElem?_append_right (by omega), Nat.add_sub_cancel_left,
      List.getElem?_append_left hi]
  · unfold len
    simp only [c_str, concat]
    rw [List.getElem?_append_right (by simp)]
    simp

/-! ## Comparison -/

theorem c_str_getElem_some (a : string) (i : Nat) (h : i < a.length) :
    (c_str a)[i]? = some a[i] := by
  unfold c_str
  rw [List.getElem?_append_left h, List.getElem?_eq_getElem h]

theorem compare_loop_eq (a b : string) (hlen : a.length = b.length) :
    ∀ (k i : Nat), a.length - i = k →
      compare_loop a b i = first_diff (a.drop i) (b.drop i) := by
  intro k
  induction k with
  | zero =>
    intro i hk
    rw [compare_loop, if_neg (by omega), List.drop_eq_nil_of_le (by omega)]
    rfl
  | succ k ih =>
    intro i hk
    have ha : i < a.length := by omega
    have hb : i < b.length := by omega
    rw [compare_loop, if_pos ha, c_str_getElem_some a i ha, c_str_getElem_some b i hb,
      List.drop_eq_getElem_cons ha, List.drop_eq_getElem_cons hb]
    simp only [first_diff]
    rw [ih (i + 1) (by omega)]

theorem first_diff_self (a : List Int) : first_diff a a = none := by
  induction a with
  | nil => rfl
  | cons x xs ih => simp [first_diff, ih]

theorem first_diff_of_ne (a b : List Int) (hlen : a.length = b.length) (hne : a ≠ b) :
    first_diff a b = some (-1) ∨ first_diff a b = some 1 := by
  induction a generalizing b with
  | nil =>
    cases b with
    | nil => exact absurd rfl hne
    | cons y ys => simp at hlen
  | cons x xs ih =>
    cases b with
    | nil => simp at hlen
    | cons y ys =>
      simp only [first_diff]
      split_ifs with h1 h2
      · exact Or.inl rfl
      · exact Or.inr rfl
      · have hxy : x = y := by omega
        subst hxy
        exact ih ys (by simpa using hlen) (fun h => hne (by rw [h]))

theorem first_diff_swap (a b : List Int) (r : Int) (h : first_diff a b = some r) :
    first_diff b a = some (-r) := by
  induction a generalizing b with
  | nil => cases b <;> simp [first_diff] at h
  | cons x xs ih =>
    cases b with
    | nil => simp [first_diff] at h
    | cons y ys =>
      simp only [first_diff] at h ⊢
      split_ifs at h with h1 h2
      · rw [if_neg (by omega), if_pos (by omega)]
        simp only [Option.some.injEq] at h
        rw [← h]; rfl
      · rw [if_pos (by omega)]
        simp only [Option.some.injEq] at h
        rw [← h]
      · rw [if_neg (by omega), if_neg (by omega)]
        exact ih ys h

theorem compare_general_eq (a b : string) :
    compare_general a b =
      if a.length < b.length then some (-1)
      else if a.length > b.length then some 1
      else first_diff a b := by
  unfold compare_general
  split_ifs with h1 h2
  · rfl
  · rfl
  · rw [compare_loop_eq a b (by omega) a.length 0 (by omega)]
    simp

theorem compare_general_self (a : string) : compare_general a a = none := by
  rw [compare_general_eq, if_neg (lt_irrefl _), if_neg (lt_irrefl _), first_diff_self]

theorem compare_cases (a b : string) :
    (a = b ∧ compare a b = some 0) ∨
    (a ≠ b ∧ a.length < b.length ∧ compare a b = some (-1)) ∨
    (a ≠ b ∧ b.length < a.length ∧ compare a b = some 1) ∨
    (a ≠ b ∧ a.length = b.length ∧ first_diff a b = some (-1) ∧ compare a b = some (-1)) ∨
    (a ≠ b ∧ a.length = b.length ∧ first_diff a b = some 1 ∧ compare a b = some 1) := by
  unfold compare
  by_cases hab : a = b
  · exact Or.inl ⟨hab, by rw [if_pos hab]⟩
  · rw [if_neg hab, compare_general_eq]
    rcases Nat.lt_trichotomy a.length b.length with h | h | h
    · exact Or.inr (Or.inl ⟨hab, h, by rw [if_pos h]⟩)
    · rw [if_neg (by omega), if_neg (by omega)]
      rcases first_diff_of_ne a b h hab with hd | hd
      · exact Or.inr (Or.inr (Or.inr (Or.inl ⟨hab, h, hd, hd⟩)))
      · exact Or.inr (Or.inr (Or.inr (Or.inr ⟨hab, h, hd, hd⟩)))
    · exact Or.inr (Or.inr (Or.inl ⟨hab, h, by rw [if_neg (by omega), if_pos h]⟩))

theorem compare_swap (a b : string) (r : Int) (h : compare a b = some r) :
    compare b a = some (-r) := by
  rcases compare_cases a b with ⟨hab, hc⟩ | ⟨_, hl, hc⟩ | ⟨_, hl, hc⟩ | ⟨_, hl, hd, hc⟩ |
    ⟨_, hl, hd, hc⟩ <;>
  rw [hc, Option.some.injEq] at h <;> subst h
  · subst hab
    exact hc
  · rcases compare_cases b a with ⟨hba, _⟩ | ⟨_, hl2, _⟩ | ⟨_, _, hc2⟩ | ⟨_, hl2, _⟩ |
      ⟨_, hl2, _⟩
    · rw [hba] at hl; omega
    · omega
    · exact hc2
    · omega
    · omega
  · rcases compare_cases b a with ⟨hba, _⟩ | ⟨_, _, hc2⟩ | ⟨_, hl2, _⟩ | ⟨_, hl2, _⟩ |
      ⟨_, hl2, _⟩
    · rw [hba] at hl; omega
    · exact hc2
    · omega
    · omega
    · omega
  · have hsw := first_diff_swap a b (-1) hd
    rcases compare_cases b a with ⟨hba, _⟩ | ⟨_, hl2, _⟩ | ⟨_, hl2, _⟩ | ⟨_, _, hd2, _⟩ |
      ⟨_, _, _, hc2⟩
    · rw [hba, first_diff_self] at hd; simp at hd
    · omega
    · omega
    · rw [hd2] at hsw; simp at hsw
    · exact hc2
  · have hsw := first_diff_swap a b 1 hd
    rcases compare_cases b a with ⟨hba, _⟩ | ⟨_, hl2, _⟩ | ⟨_, hl2, _⟩ | ⟨_, _, _, hc2⟩ |
      ⟨_, _, hd2, _⟩
    · rw [hba, first_diff_self] at hd; simp at hd
    · omega
    · omega
    · exact hc2
    · rw [hd2] at hsw; simp at hsw

theorem compare_values (a b : string) :
    ∃ r : Int, compare a b = some r ∧ (r = -1 ∨ r = 0 ∨ r = 1) := by
  rcases compare_cases a b with ⟨_, hc⟩ | ⟨_, _, hc⟩ | ⟨_, _, hc⟩ | ⟨_, _, _, hc⟩ |
    ⟨_, _, _, hc⟩
  · exact ⟨0, hc, Or.inr (Or.inl rfl)⟩
  · exact ⟨-1, hc, Or.inl rfl⟩
  · exact ⟨1, hc, Or.inr (Or.inr rfl)⟩
  · exact ⟨-1, hc, Or.inl rfl⟩
  · exact ⟨1, hc, Or.inr (Or.inr rfl)⟩

/-- C6: `compare(a, b) == -compare(b, a)` for all strings `a` and `b`, and
`compare(a, a) == 0`, with identical arguments going to the first overload and
all other pairs to the general one. -/
theorem compare_antisymm_refl (a b : string) :
    (∃ r : Int, compare a b = some r ∧ compare b a = some (-r)) ∧ compare a a = some 0 := by
  obtain ⟨r, hr, _⟩ := compare_values a b
  exact ⟨⟨r, hr, compare_swap a b r hr⟩, by unfold compare; rw [if_pos rfl]⟩

/-- C7: for strings of different lengths `compare(a, b)` is `-1` when `a` is
shorter and `1` when `a` is longer, and any other strings of the same two
lengths give the same result. -/
theorem compare_of_len_ne (a b : string) (h : len a ≠ len b) :
    compare a b = some (if len a < len b then -1 else 1) ∧
    ∀ a2 b2 : string, len a2 = len a → len b2 = len b → compare a2 b2 = compare a b := by
  have key : ∀ u v : string, len u ≠ len v →
      compare u v = some (if len u < len v then -1 else 1) := by
    intro u v huv
    unfold len at huv ⊢
    rcases compare_cases u v with ⟨he, _⟩ | ⟨_, hl, hc⟩ | ⟨_, hl, hc⟩ | ⟨_, hl, _⟩ |
      ⟨_, hl, _⟩
    · rw [he] at huv; exact absurd rfl huv
    · rw [hc, if_pos hl]
    · rw [hc, if_neg (by omega)]
    · exact absurd hl huv
    · exact absurd hl huv
  refine ⟨key a b h, ?_⟩
  intro a2 b2 ha hb
  rw [key a b h, key a2 b2 (by rw [ha, hb]; exact h), ha, hb]

/-- C7 at concrete strings: `"zz"` against `"aaa"` gives `-1`, and so does
every other pair of lengths 2 and 3, such as `"ab"` against `"abc"`. -/
theorem compare_of_len_ne_witness :
    compare [122, 122] [97, 97, 97] = some (-1) ∧
    compare [97, 98] [97, 98, 99] = compare [122, 122] [97, 97, 97] :=
  ⟨(compare_of_len_ne [122, 122] [97, 97, 97] (by decide)).1,
   (compare_of_len_ne [122, 122] [97, 97, 97] (by decide)).2 [97, 98] [97, 98, 99] rfl rfl⟩

theorem first_diff_at (i : Nat) :
    ∀ (a b : List Int) (x y : Int), a[i]? = some x → b[i]? = some y →
      (∀ j, j < i → a[j]? = b[j]?) → x ≠ y →
      first_diff a b = some (if x < y then -1 else 1) := by
  induction i with
  | zero =>
    intro a b x y hx hy _ hxy
    cases a with
    | nil => simp at hx
    | cons x0 xs =>
      cases b with
      | nil => simp at hy
      | cons y0 ys =>
        simp only [List.getElem?_cons_zero, Option.some.injEq] at hx hy
        subst hx hy
        simp only [first_diff]
        split_ifs with h1 h2
        · rfl
        · rfl
        · exact absurd (le_antisymm (not_lt.mp h2) (not_lt.mp h1)) hxy
  | succ i ih =>
    intro a b x y hx hy hpre hxy
    cases a with
    | nil => simp at hx
    | cons x0 xs =>
      cases b with
      | nil => simp at hy
      | cons y0 ys =>
        have h0 := hpre 0 (Nat.succ_pos i)
        simp only [List.getElem?_cons_zero, Option.some.injEq] at h0
        subst h0
        simp only [List.getElem?_cons_succ] at hx hy
        simp only [first_diff, lt_irrefl, if_false, gt_iff_lt]
        apply ih xs ys x y hx hy _ hxy
        intro j hj
        have := hpre (j + 1) (by omega)
        simpa only [List.getElem?_cons_succ] using this

theorem code_point_lt_iff (char_signed : Bool) (x y : Int) (hx : is_char char_signed x)
    (hy : is_char char_signed y) (hsame : 0 ≤ x ↔ 0 ≤ y) :
    code_point x < code_point y ↔ x < y := by
  unfold is_char CHAR_MIN CHAR_MAX at hx hy
  unfold code_point
  cases char_signed <;> simp at hx hy <;> omega

theorem compare_of_first_diff (a b : string) (h : a.length = b.length) (i : Nat) (x y : Int)
    (hx : a[i]? = some x) (hy : b[i]? = some y) (hpre : ∀ j, j < i → a[j]? = b[j]?)
    (hxy : x ≠ y) : compare a b = some (if x < y then -1 else 1) := by
  have hne : a ≠ b := by
    intro hab
    rw [hab, hy] at hx
    exact hxy (Option.some.inj hx).symm
  unfold compare
  rw [if_neg hne, compare_general_eq, if_neg (by omega), if_neg (by omega)]
  exact first_diff_at i a b x y hx hy hpre hxy

theorem compare_of_length_lt (a b : string) (h : a.length < b.length) :
    compare a b = some (-1) := by
  rcases compare_cases a b with ⟨he, _⟩ | ⟨_, _, hc⟩ | ⟨_, hl, _⟩ | ⟨_, hl, _⟩ | ⟨_, hl, _⟩
  · rw [he] at h; omega
  · exact hc
  · omega
  · omega
  · omega

/-- C8, as the code has it: for strings of equal length `compare(a, b)` is `0`
when the strings are equal, and otherwise, with `i` the first index where they
differ, `-1` if `a[i] < b[i]` and `1` if `a[i] > b[i]` as values of type `char`.
That is the order of the code points when `a[i]` and `b[i]` are both
non-negative or both negative, in particular whenever plain `char` is
unsigned. -/
theorem compare_equal_length (char_signed : Bool) (a b : string) (h : len a = len b) :
    (a = b → compare a b = some 0) ∧
    ∀ (i : Nat) (x y : Int), a[i]? = some x → b[i]? = some y →
      (∀ j, j < i → a[j]? = b[j]?) → x ≠ y →
      compare a b = some (if x < y then -1 else 1) ∧
      (is_char char_signed x → is_char char_signed y → (0 ≤ x ↔ 0 ≤ y) →
        compare a b = some (if code_point x < code_point y then -1 else 1)) := by
  unfold len at h
  refine ⟨fun hab => by unfold compare; rw [if_pos hab], ?_⟩
  intro i x y hx hy hpre hxy
  have hc := compare_of_first_diff a b h i x y hx hy hpre hxy
  refine ⟨hc, fun hcx hcy hsame => ?_⟩
  rw [hc]
  congr 1
  exact if_congr (code_point_lt_iff char_signed x y hcx hcy hsame).symm rfl rfl

/-- C8, the documented example: `compare("less", "more")` is `-1`, the strings
differ at index `0` where `'l' < 'm'`. -/
theorem compare_less_more :
    compare [108, 101, 115, 115] [109, 111, 114, 101] = some (-1) :=
  ((compare_equal_length true [108, 101, 115, 115] [109, 111, 114, 101] rfl).2
    0 108 109 rfl rfl (fun j hj => absurd hj (Nat.not_lt_zero j)) (by decide)).1

/-- C8 fails where plain `char` is signed: the character with code point 200
has the value `-56`, so `compare("\xC8", "a")` is `-1` although the code point
200 is greater than the code point 97 of `'a'`. -/
theorem compare_not_by_code_point :
    is_char true (-56) ∧ is_char true 97 ∧ code_point (-56) = 200 ∧ code_point 97 = 97 ∧
    len [-56] = len [97] ∧
    compare [-56] [97] = some (-1) ∧
    compare [-56] [97] ≠ some (if code_point (-56) < code_point 97 then -1 else 1) := by
  have hc : compare [-56] [97] = some (-1) := by
    rw [compare_of_first_diff [-56] [97] rfl 0 (-56) 97 (by decide) (by decide)
      (fun j hj => absurd hj (Nat.not_lt_zero j)) (by decide)]
    decide
  refine ⟨by decide, by decide, by decide, by decide, rfl, hc, ?_⟩
  rw [hc]
  decide

theorem first_diff_cons_neg (x y : Int) (xs ys : List Int) :
    first_diff (x :: xs) (y :: ys) = some (-1) ↔
      x < y ∨ (x = y ∧ first_diff xs ys = some (-1)) := by
  simp only [first_diff]
  split_ifs with h1 h2
  · simp [h1]
  · constructor
    · intro h; simp at h
    · rintro (h | ⟨h, _⟩)
      · exact absurd h h1
      · subst h; exact absurd h2 (lt_irrefl _)
  · have hxy : x = y := le_antisymm (not_lt.mp h2) (not_lt.mp h1)
    simp [hxy]

theorem first_diff_trans (a : List Int) :
    ∀ b c : List Int, first_diff a b = some (-1) → first_diff b c = some (-1) →
      first_diff a c = some (-1) := by
  induction a with
  | nil => intro b c h; cases b <;> simp [first_diff] at h
  | cons x xs ih =>
    intro b c hab hbc
    cases b with
    | nil => simp [first_diff] at hab
    | cons y ys =>
      cases c with
      | nil => simp [first_diff] at hbc
      | cons z zs =>
        rw [first_diff_cons_neg] at hab hbc ⊢
        rcases hab with h1 | ⟨h1, h1r⟩
        · rcases hbc with h2 | ⟨h2, _⟩
          · exact Or.inl (lt_trans h1 h2)
          · exact Or.inl (h2 ▸ h1)
        · rcases hbc with h2 | ⟨h2, h2r⟩
          · exact Or.inl (h1 ▸ h2)
          · exact Or.inr ⟨h1.trans h2, ih ys zs h1r h2r⟩

theorem compare_le_iff (a b : string) :
    (∃ r : Int, compare a b = some r ∧ r ≤ 0) ↔
      (a.length < b.length ∨ (a.length = b.length ∧ (a = b ∨ first_diff a b = some (-1)))) := by
  rcases compare_cases a b with ⟨he, hc⟩ | ⟨_, hl, hc⟩ | ⟨_, hl, hc⟩ | ⟨_, hl, hd, hc⟩ |
    ⟨hne, hl, hd, hc⟩
  · exact ⟨fun _ => Or.inr ⟨by rw [he], Or.inl he⟩, fun _ => ⟨0, hc, le_refl _⟩⟩
  · exact ⟨fun _ => Or.inl hl, fun _ => ⟨-1, hc, by decide⟩⟩
  · constructor
    · rintro ⟨r, hr, hr0⟩
      rw [hc, Option.some.injEq] at hr
      omega
    · rintro (h | ⟨h, _⟩) <;> omega
  · exact ⟨fun _ => Or.inr ⟨hl, Or.inr hd⟩, fun _ => ⟨-1, hc, by decide⟩⟩
  · constructor
    · rintro ⟨r, hr, hr0⟩
      rw [hc, Option.some.injEq] at hr
      omega
    · rintro (h | ⟨_, h | h⟩)
      · omega
      · exact absurd h hne
      · rw [hd] at h; simp at h

theorem compare_trans (a b c : string) (hab : ∃ r : Int, compare a b = some r ∧ r ≤ 0)
    (hbc : ∃ r : Int, compare b c = some r ∧ r ≤ 0) :
    ∃ r : Int, compare a c = some r ∧ r ≤ 0 := by
  rw [compare_le_iff] at hab hbc ⊢
  rcases hab with h1 | ⟨h1, h1r⟩
  · rcases hbc with h2 | ⟨h2, _⟩
    · exact Or.inl (by omega)
    · exact Or.inl (by omega)
  · rcases hbc with h2 | ⟨h2, h2r⟩
    · exact Or.inl (by omega)
    · refine Or.inr ⟨by omega, ?_⟩
      rcases h1r with e1 | d1
      · subst e1; exact h2r
      · rcases h2r with e2 | d2
        · subst e2; exact Or.inr d1
        · exact Or.inr (first_diff_trans a b c d1 d2)

/-- C9: `compare` is a total order on strings: `compare(a, b) == 0` exactly
when `a` and `b` are the same string; `compare(a, b) <= 0` and
`compare(b, c) <= 0` give `compare(a, c) <= 0`; and for every pair
`compare(a, b) <= 0` or `compare(b, a) <= 0`. -/
theorem compare_total_order (a b c : string) :
    (compare a b = some 0 ↔ a = b) ∧
    (∀ r s : Int, compare a b = some r → r ≤ 0 → compare b c = some s → s ≤ 0 →
      ∃ t : Int, compare a c = some t ∧ t ≤ 0) ∧
    (∃ r s : Int, compare a b = some r ∧ compare b a = some s ∧ (r ≤ 0 ∨ s ≤ 0)) := by
  refine ⟨?_, ?_, ?_⟩
  · constructor
    · intro h
      rcases compare_cases a b with ⟨he, _⟩ | ⟨_, _, hc⟩ | ⟨_, _, hc⟩ | ⟨_, _, _, hc⟩ |
        ⟨_, _, _, hc⟩
      · exact he
      all_goals rw [hc] at h; simp at h
    · intro he
      unfold compare
      rw [if_pos he]
  · intro r s hr hr0 hs hs0
    exact compare_trans a b c ⟨r, hr, hr0⟩ ⟨s, hs, hs0⟩
  · obtain ⟨r, hr, _⟩ := compare_values a b
    refine ⟨r, -r, hr, compare_swap a b r hr, ?_⟩
    omega

/-- C9 at concrete strings: `"a" <= "b"` and `"b" <= "ab"` (shorter first), and
indeed `"a" <= "ab"`. -/
theorem compare_total_order_witness :
    ∃ t : Int, compare [97] [97, 98] = some t ∧ t ≤ 0 :=
  (compare_total_order [97] [98] [97, 98]).2.1 (-1) (-1)
    (compare_of_first_diff [97] [98] rfl 0 97 98 rfl rfl
      (fun j hj => absurd hj (Nat.not_lt_zero j)) (by decide))
    (by decide)
    (compare_of_length_lt [98] [97, 98] (by decide))
    (by decide)

/-- C10: `compare` yields a value for every pair of strings, and the value is
`-1`, `0` or `1`; the general overload ends without a value exactly on two
identical strings, which never reach it. -/
theorem compare_well_defined (a b : string) :
    (∃ r : Int, compare a b = some r ∧ (r = -1 ∨ r = 0 ∨ r = 1)) ∧
    (compare_general a b = none ↔ a = b) ∧
    (a ≠ b → ∃ r : Int, compare_general a b = some r ∧ (r = -1 ∨ r = 1)) := by
  have hne : a ≠ b → ∃ r : Int, compare_general a b = some r ∧ (r = -1 ∨ r = 1) := by
    intro hab
    rcases compare_cases a b with ⟨he, _⟩ | ⟨_, _, hc⟩ | ⟨_, _, hc⟩ | ⟨_, _, _, hc⟩ |
      ⟨_, _, _, hc⟩
    · exact absurd he hab
    all_goals
      unfold compare at hc
      rw [if_neg hab] at hc
    · exact ⟨-1, hc, Or.inl rfl⟩
    · exact ⟨1, hc, Or.inr rfl⟩
    · exact ⟨-1, hc, Or.inl rfl⟩
    · exact ⟨1, hc, Or.inr rfl⟩
  refine ⟨compare_values a b, ⟨?_, ?_⟩, hne⟩
  · intro h
    by_contra hab
    obtain ⟨r, hr, _⟩ := hne hab
    rw [h] at hr
    simp at hr
  · intro hab
    rw [hab]
    exact compare_general_self b

/-! ## The invariant of `string` -/

theorem string_invariant_holds (s : string) : string_invariant s := by
  refine ⟨rfl, by simp [c_str, len], ?_, ?_⟩
  · intro i hi
    unfold len at hi
    unfold c_str
    rw [List.getElem?_append_left hi]
  · unfold len c_str
    rw [List.getElem?_append_right (le_refl _)]
    simp

/-- C11: every character sequence satisfies the invariant (`len()` is the size
of the pack, `c_str` has `len() + 1` elements, holds the characters of the pack
in order and ends with the terminator), in particular every result of `stom_t`,
of `itom_t` and of `operator+`. -/
theorem string_invariant_of_all (s : string) :
    string_invariant s ∧
    (∀ (lit : List Int) (t : string), stom_t lit = some t → string_invariant t) ∧
    (∀ (char_signed : Bool) (x : Int) (t : string),
      itom_t char_signed x = some t → string_invariant t) ∧
    (∀ a b : string, string_invariant (concat a b)) :=
  ⟨string_invariant_holds s, fun _ t _ => string_invariant_holds t,
    fun _ _ t _ => string_invariant_holds t, fun a b => string_invariant_holds (concat a b)⟩

/-! ## Capturing a string again -/

theorem wrap_of_string_eq (s : string) : wrap_of_string s = some ⟨s.length + 1, s⟩ := by
  unfold wrap_of_string
  rw [wrap_ctor_eq (s.length + 1) (c_str s) (by omega) (by simp [c_str])]
  simp [c_str]

theorem unwrap_t_eq (w : wrap) (h : w.size ≤ w.buf.length) :
    unwrap_t w = some (w.buf.take w.size) := by
  unfold unwrap_t
  rw [explode_eq w w.size h []]
  simp

/-- C12: for every string `s = string<c1, ..., cn>`, `wrap(s)` is a
`wrap<n + 1>` with `size() == n` whose buffer holds `c1, ..., cn` in order, and
`unwrap_t<wrap(s)>` is `string<c1, ..., cn>` again. -/
theorem wrap_unwrap_string (s : string) :
    ∃ w : wrap, wrap_of_string s = some w ∧ w.N = len s + 1 ∧ w.size = len s ∧
      w.buf = s ∧ (∀ i, i < len s → w.buf[i]? = s[i]?) ∧ unwrap_t w = some s := by
  refine ⟨⟨s.length + 1, s⟩, wrap_of_string_eq s, rfl, rfl, rfl, fun _ _ => rfl, ?_⟩
  rw [unwrap_t_eq _ (by simp [wrap.size])]
  simp [wrap.size]

theorem my_class_of_string_eq (s : string) : my_class_of_string s = some s := by
  unfold my_class_of_string
  rw [wrap_of_string_eq]
  simp only [Option.bind, my_class_value, unwrap_v]
  rw [unwrap_t_eq _ (by simp [wrap.size])]
  simp [wrap.size]

/-- C13: for the string object `instance` of `stom_t<"abcd">`,
`my_class<instance>{}.value` is `string<'a', 'b', 'c', 'd'>`, whose C string is
`"abcd"` and not the `"some abcd"` of the comment in the example. -/
theorem my_class_instance_value :
    stom_t [97, 98, 99, 100, 0] = some [97, 98, 99, 100] ∧
    my_class_of_string [97, 98, 99, 100] = some [97, 98, 99, 100] ∧
    c_str [97, 98, 99, 100] = [97, 98, 99, 100, 0] ∧
    my_class_of_string [97, 98, 99, 100]
      ≠ some [115, 111, 109, 101, 32, 97, 98, 99, 100] := by
  refine ⟨stom_t_eq_dropLast _ (by simp), my_class_of_string_eq _, rfl, ?_⟩
  rw [my_class_of_string_eq]
  decide

/-! ## The recursion of `explode` -/

theorem explode_depth_eq (S : wrap) (k : Nat) (hk : k ≤ S.buf.length) (acc : List Int) :
    explode_depth S k acc = some k := by
  induction k generalizing acc with
  | zero => rfl
  | succ k ih =>
    have hlt : k < S.buf.length := by omega
    rw [explode_depth, List.getElem?_eq_getElem hlt]
    simp only
    rw [ih (by omega)]
    rfl

/-- C16: for a capture `S` with a buffer of `n` characters, `0 <= k <= n` and
any accumulated pack `acc`, `explode<S, k, acc...>::type` is
`string<buf[0], ..., buf[k-1], acc...>`, reached after exactly `k`
instantiations of the primary template; for `k == 0` it is `string<acc...>` and
`explode<S, n>::type` is `string<buf[0], ..., buf[n-1]>`. -/
theorem explode_forward_order (S : wrap) (k : Nat) (hk : k ≤ S.buf.length) (acc : List Int) :
    (∃ t : string, explode S k acc = some t ∧ t = S.buf.take k ++ acc ∧
      (∀ i, i < k → t[i]? = S.buf[i]?) ∧ (∀ j, t[k + j]? = acc[j]?)) ∧
    explode S 0 acc = some acc ∧
    explode S S.buf.length [] = some S.buf ∧
    explode_depth S k acc = some k := by
  have hlen : (S.buf.take k).length = k := by simp [hk]
  refine ⟨⟨S.buf.take k ++ acc, explode_eq S k hk acc, rfl, ?_, ?_⟩, rfl, ?_,
    explode_depth_eq S k hk acc⟩
  · intro i hi
    rw [List.getElem?_append_left (by omega), List.getElem?_take, if_pos hi]
  · intro j
    rw [List.getElem?_append_right (by omega), hlen, Nat.add_sub_cancel_left]
  · rw [explode_eq S S.buf.length (le_refl _) []]
    simp

/-- C16 at a concrete capture: for the buffer `abcd`, `k = 2` and the pack `xy`
the result is `string<'a', 'b', 'x', 'y'>` after 2 instantiations. -/
theorem explode_forward_order_witness :
    (∃ t : string, explode ⟨5, [97, 98, 99, 100]⟩ 2 [120, 121] = some t ∧
      t = [97, 98, 120, 121] ∧
      (∀ i, i < 2 → t[i]? = [97, 98, 99, (100 : Int)][i]?) ∧
      (∀ j, t[2 + j]? = [120, (121 : Int)][j]?)) ∧
    explode ⟨5, [97, 98, 99, 100]⟩ 0 [120, 121] = some [120, 121] ∧
    explode ⟨5, [97, 98, 99, 100]⟩ 4 [] = some [97, 98, 99, 100] ∧
    explode_depth ⟨5, [97, 98, 99, 100]⟩ 2 [120, 121] = some 2 :=
  explode_forward_order ⟨5, [97, 98, 99, 100]⟩ 2 (by decide) [120, 121]

/-! ## The two overloads of `compare` -/

theorem compare_general_of_ne (a b : string) (h : a ≠ b) :
    compare_general a b = compare a b := by
  unfold compare
  rw [if_neg h]

/-- C17, as the code has it: the overload for identical strings is needed.  On
two different strings the general overload alone gives the value of `compare`;
on two identical strings it ends without a `return`, so it has no value, while
`compare` is `0` there. -/
theorem compare_general_vs_compare (a b : string) :
    (a ≠ b → compare_general a b = compare a b) ∧
    (a = b → compare_general a b = none ∧ compare a b = some 0) ∧
    (compare_general a b = compare a b ↔ a ≠ b) := by
  have h2 : a = b → compare_general a b = none ∧ compare a b = some 0 := by
    intro hab
    subst hab
    exact ⟨compare_general_self a, by unfold compare; rw [if_pos rfl]⟩
  refine ⟨compare_general_of_ne a b, h2, ?_, compare_general_of_ne a b⟩
  intro heq hab
  obtain ⟨h3, h4⟩ := h2 hab
  rw [h3, h4] at heq
  simp at heq

/-- C17 fails on two identical strings: for `"a"` the general overload has no
value (the loop finds no difference and the body ends), `compare` has the
value `0`. -/
theorem compare_general_not_redundant :
    compare_general [97] [97] = none ∧ compare [97] [97] = some 0 ∧
    compare_general [97] [97] ≠ some 0 ∧
    compare_general [97] [97] ≠ compare [97] [97] := by
  have h1 : compare_general [97] [97] = none := compare_general_self [97]
  have h2 : compare [97] [97] = some 0 := by decide
  refine ⟨h1, h2, ?_, ?_⟩
  · rw [h1]; simp
  · rw [h1, h2]; simp

/-- C17 on two different strings: for `"less"` and `"more"` the general
overload alone gives the value of `compare`. -/
theorem compare_general_vs_compare_witness :
    compare_general [108, 101, 115, 115] [109, 111, 114, 101]
      = compare [108, 101, 115, 115] [109, 111, 114, 101] :=
  (compare_general_vs_compare [108, 101, 115, 115] [109, 111, 114, 101]).1 (by decide)

/-! ## Concatenation as a monoid -/

/-- C18: `operator+` is associative and the empty string `string<>` is its
identity on both sides. -/
theorem concat_monoid (a b c : string) :
    concat (concat a b) c = concat a (concat b c) ∧
    concat a [] = a ∧ concat [] a = a := by
  refine ⟨?_, ?_, ?_⟩
  · simp [concat]
  · simp [concat]
  · simp [concat]

/-! ## `num_digits` and the digit recursion -/

theorem abs_val_of_gt_min (x : Int) (hlo : INTMAX_MIN < x) (hhi : x ≤ INTMAX_MAX) :
    abs_val x = some (x.natAbs : Int) := by
  rcases lt_or_le x 0 with hx | hx
  · obtain ⟨n, rfl⟩ : ∃ n : Nat, x = -(n : Int) := ⟨x.natAbs, by omega⟩
    have hn : (n : Int) ≤ INTMAX_MAX := by
      unfold INTMAX_MIN at hlo
      unfold INTMAX_MAX
      omega
    rw [abs_val_neg_nat n hn]
    simp
  · obtain ⟨n, rfl⟩ : ∃ n : Nat, x = (n : Int) := ⟨x.toNat, by omega⟩
    rw [abs_val_nat]
    simp

theorem num_digits_of_gt_min (x : Int) (hlo : INTMAX_MIN < x) (hhi : x ≤ INTMAX_MAX) :
    num_digits x = some ((canonical_decimal x).length : Int) := by
  unfold canonical_decimal
  rcases lt_or_le x 0 with hx | hx
  · obtain ⟨n, rfl⟩ : ∃ n : Nat, x = -(n : Int) := ⟨x.natAbs, by omega⟩
    have hn : (n : Int) ≤ INTMAX_MAX := by
      unfold INTMAX_MIN at hlo
      unfold INTMAX_MAX
      omega
    rw [num_digits_neg_nat n (by omega) hn, if_pos hx]
    simp only [Int.natAbs_neg, Int.natAbs_ofNat, List.length_cons]
    congr 1
    push_cast
    ring
  · obtain ⟨n, rfl⟩ : ∃ n : Nat, x = (n : Int) := ⟨x.toNat, by omega⟩
    rw [num_digits_nat n hhi, if_neg (by omega)]
    simp

theorem decimal_digits_range (n : Nat) : ∀ c ∈ decimal_digits n, 48 ≤ c ∧ c ≤ 57 := by
  induction n using Nat.strong_induction_on with
  | _ n ih =>
    intro c hc
    rcases Nat.lt_or_ge n 10 with h | h
    · rw [decimal_digits_lt_ten n h] at hc
      simp only [List.mem_singleton] at hc
      omega
    · rw [decimal_digits_ge_ten n h] at hc
      rcases List.mem_append.mp hc with h1 | h1
      · exact ih (n / 10) (by omega) c h1
      · simp only [List.mem_singleton] at h1
        omega

theorem int_to_str_impl_nonpos (sgn : Bool) (size x : Int) (args : List Int) (h : size ≤ 0) :
    int_to_str_impl sgn size x args = none := by
  rw [int_to_str_impl, if_neg (by omega), if_neg (by omega), dif_pos h]

theorem int_to_str_impl_step (sgn : Bool) (size x : Int) (args : List Int) (hsz : 3 ≤ size)
    (hlo : INTMAX_MIN < x) (hhi : x ≤ INTMAX_MAX) :
    int_to_str_impl sgn size x args
      = int_to_str_impl sgn (size - 1) (x.tdiv 10)
          ((48 + ((x.natAbs % 10 : Nat) : Int)) :: args) := by
  rw [int_to_str_impl, if_neg (by omega), if_neg (by omega), dif_neg (by omega),
    abs_val_of_gt_min x hlo hhi]
  simp only [Option.bind, nat_tmod_ten, to_char_digit sgn (x.natAbs % 10) (by omega)]

/-- C14: `num_digits(x)` is the number of characters of the canonical decimal
representation of `x` (the decimal digits of `|x|`, and one more for the sign
when `x < 0`) for every `std::intmax_t` value `x` except the most negative one,
where the negation `-x` overflows and `num_digits` has no value. -/
theorem num_digits_counts_except_intmax_min :
    num_digits INTMAX_MIN = none ∧
    ∀ x : Int, INTMAX_MIN < x → x ≤ INTMAX_MAX →
      num_digits x = some ((canonical_decimal x).length : Int) ∧
      (canonical_decimal x).length
        = (decimal_digits x.natAbs).length + (if x < 0 then 1 else 0) := by
  refine ⟨num_digits_intmax_min, fun x hlo hhi => ⟨num_digits_of_gt_min x hlo hhi, ?_⟩⟩
  unfold canonical_decimal
  split_ifs <;> simp

/-- C14 at concrete values: `num_digits(-8)` is `2` and `num_digits(1234)` is
`4`. -/
theorem num_digits_counts_examples :
    num_digits (-8) = some 2 ∧ num_digits 1234 = some 4 := by
  have h := num_digits_counts_except_intmax_min.2
  refine ⟨?_, ?_⟩
  · rw [(h (-8) (by decide) (by decide)).1]
    simp [canonical_decimal, decimal_digits]
  · rw [(h 1234 (by decide) (by decide)).1]
    simp [canonical_decimal, decimal_digits]

/-- C15: for `INTMAX_MIN < x <= INTMAX_MAX` and any accumulated pack `acc`,
`int_to_str_impl<num_digits(x), x, acc...>` starts at a size of at least 1 and
yields the decimal digits of `x` followed by `acc` for `x >= 0`, and `-`, the
decimal digits of `|x|` and `acc` for `x < 0`; every emitted character is `-`
or a digit; every step of the primary template (size at least 3) prepends
`'0' + |x| % 10` and continues with `x / 10`; a size below 1 would never reach
a base case. -/
theorem int_to_str_impl_digits (char_signed : Bool) (x : Int) (hlo : INTMAX_MIN < x)
    (hhi : x ≤ INTMAX_MAX) (acc : List Int) :
    ∃ n : Int, num_digits x = some n ∧ 1 ≤ n ∧
      (0 ≤ x → int_to_str_impl char_signed n x acc
        = some (decimal_digits x.natAbs ++ acc)) ∧
      (x < 0 → int_to_str_impl char_signed n x acc
        = some (45 :: decimal_digits x.natAbs ++ acc)) ∧
      (∃ emitted : List Int, int_to_str_impl char_signed n x acc = some (emitted ++ acc) ∧
        ∀ c ∈ emitted, c = 45 ∨ (48 ≤ c ∧ c ≤ 57)) ∧
      (∀ (size y : Int) (args : List Int), 3 ≤ size → INTMAX_MIN < y → y ≤ INTMAX_MAX →
        int_to_str_impl char_signed size y args
          = int_to_str_impl char_signed (size - 1) (y.tdiv 10)
              ((48 + ((y.natAbs % 10 : Nat) : Int)) :: args)) ∧
      (∀ (size y : Int) (args : List Int), size ≤ 0 →
        int_to_str_impl char_signed size y args = none) := by
  have hpos := decimal_digits_length_pos x.natAbs
  have hres : int_to_str_impl char_signed ((canonical_decimal x).length : Int) x acc
      = some (canonical_decimal x ++ acc) := by
    unfold canonical_decimal
    rcases lt_or_le x 0 with hx | hx
    · obtain ⟨n, rfl⟩ : ∃ n : Nat, x = -(n : Int) := ⟨x.natAbs, by omega⟩
      have hn : (n : Int) ≤ INTMAX_MAX := by
        unfold INTMAX_MIN at hlo
        unfold INTMAX_MAX
        omega
      rw [if_pos hx]
      simp only [Int.natAbs_neg, Int.natAbs_ofNat, List.length_cons]
      have hsz : (((decimal_digits n).length + 1 : Nat) : Int)
          = 1 + ((decimal_digits n).length : Int) := by
        push_cast; ring
      rw [hsz, int_to_str_impl_neg_nat char_signed n (by omega) hn acc]
    · obtain ⟨n, rfl⟩ : ∃ n : Nat, x = (n : Int) := ⟨x.toNat, by omega⟩
      rw [if_neg (by omega)]
      simp only [Int.natAbs_ofNat]
      exact int_to_str_impl_nat char_signed n acc
  refine ⟨((canonical_decimal x).length : Int), num_digits_of_gt_min x hlo hhi, ?_, ?_, ?_,
    ⟨canonical_decimal x, hres, ?_⟩, ?_, ?_⟩
  · unfold canonical_decimal
    split_ifs
    · simp only [List.length_cons]; omega
    · omega
  · intro hx
    rw [hres]
    unfold canonical_decimal
    rw [if_neg (by omega)]
  · intro hx
    rw [hres]
    unfold canonical_decimal
    rw [if_pos hx]
  · intro c hc
    unfold canonical_decimal at hc
    split_ifs at hc
    · rcases List.mem_cons.mp hc with h1 | h1
      · exact Or.inl h1
      · exact Or.inr (decimal_digits_range _ c h1)
    · exact Or.inr (decimal_digits_range _ c hc)
  · intro size y args h3 hylo hyhi
    exact int_to_str_impl_step char_signed size y args h3 hylo hyhi
  · intro size y args hsz
    exact int_to_str_impl_nonpos char_signed size y args hsz

/-- C15 at a concrete input: for `x = -120` and the pack `!` the recursion
yields `string<'-', '1', '2', '0', '!'>`. -/
theorem int_to_str_impl_digits_witness :
    ∃ n : Int, num_digits (-120) = some n ∧
      int_to_str_impl true n (-120) [33] = some [45, 49, 50, 48, 33] := by
  obtain ⟨n, h1, _, _, h3, _⟩ :=
    int_to_str_impl_digits true (-120) (by decide) (by decide) [33]
  refine ⟨n, h1, ?_⟩
  rw [h3 (by decide)]
  simp [decimal_digits]

/-! ## Comparison and concatenation -/

theorem first_diff_append_left (c a b : List Int) :
    first_diff (c ++ a) (c ++ b) = first_diff a b := by
  induction c with
  | nil => rfl
  | cons x xs ih => simp [first_diff, ih]

theorem first_diff_append_right (c : List Int) :
    ∀ a b : List Int, a.length = b.length →
      first_diff (a ++ c) (b ++ c) = first_diff a b := by
  intro a
  induction a with
  | nil =>
    intro b hlen
    cases b with
    | nil => simp [first_diff, first_diff_self]
    | cons y ys => simp at hlen
  | cons x xs ih =>
    intro b hlen
    cases b with
    | nil => simp at hlen
    | cons y ys =>
      have h := ih ys (by simpa using hlen)
      simp only [List.cons_append, first_diff, List.append_eq, h]

theorem first_diff_append_of_some (a b s t : List Int) (r : Int)
    (h : first_diff a b = some r) : first_diff (a ++ s) (b ++ t) = some r := by
  induction a generalizing b with
  | nil => cases b <;> simp [first_diff] at h
  | cons x xs ih =>
    cases b with
    | nil => simp [first_diff] at h
    | cons y ys =>
      simp only [List.cons_append, first_diff] at h ⊢
      split_ifs at h ⊢ with h1 h2
      · exact h
      · exact h
      · exact ih ys h

theorem compare_append_right (a b c : string) : compare (a ++ c) (b ++ c) = compare a b := by
  unfold compare
  by_cases hab : a = b
  · rw [if_pos hab, if_pos (by rw [hab])]
  · rw [if_neg hab, if_neg (fun h => hab (List.append_left_inj c |>.mp h)),
      compare_general_eq, compare_general_eq]
    simp only [List.length_append, Nat.add_lt_add_iff_right, gt_iff_lt]
    split_ifs with h1 h2
    · rfl
    · rfl
    · exact first_diff_append_right c a b (by omega)

theorem compare_append_left (a b c : string) : compare (c ++ a) (c ++ b) = compare a b := by
  unfold compare
  by_cases hab : a = b
  · rw [if_pos hab, if_pos (by rw [hab])]
  · rw [if_neg hab, if_neg (fun h => hab (List.append_right_inj c |>.mp h)),
      compare_general_eq, compare_general_eq]
    simp only [List.length_append, Nat.add_lt_add_iff_left, gt_iff_lt]
    split_ifs with h1 h2
    · rfl
    · rfl
    · exact first_diff_append_left c a b

/-- C19: `compare` does not change when a common string is concatenated on the
right of both arguments or on the left of both arguments. -/
theorem compare_concat_common (a b c : string) :
    compare (concat a c) (concat b c) = compare a b ∧
    compare (concat c a) (concat c b) = compare a b :=
  ⟨compare_append_right a b c, compare_append_left a b c⟩

/-! ## Comparison of decimal strings -/

theorem decimal_digits_length_ge_ten (n : Nat) (h : 10 ≤ n) :
    (decimal_digits n).length = (decimal_digits (n / 10)).length + 1 := by
  rw [decimal_digits_ge_ten n h]
  simp

theorem decimal_digits_length_mono (n : Nat) :
    ∀ m : Nat, m ≤ n → (decimal_digits m).length ≤ (decimal_digits n).length := by
  induction n using Nat.strong_induction_on with
  | _ n ih =>
    intro m hmn
    rcases Nat.lt_or_ge m 10 with hm | hm
    · rw [decimal_digits_lt_ten m hm]
      exact decimal_digits_length_pos n
    · rw [decimal_digits_length_ge_ten m hm, decimal_digits_length_ge_ten n (by omega)]
      have := ih (n / 10) (by omega) (m / 10) (Nat.div_le_div_right hmn)
      omega

theorem first_diff_decimal_digits (n : Nat) :
    ∀ m : Nat, m < n → (decimal_digits m).length = (decimal_digits n).length →
      first_diff (decimal_digits m) (decimal_digits n) = some (-1) := by
  induction n using Nat.strong_induction_on with
  | _ n ih =>
    intro m hmn hlen
    rcases Nat.lt_or_ge n 10 with hn | hn
    · rw [decimal_digits_lt_ten n hn, decimal_digits_lt_ten m (by omega)]
      simp only [first_diff]
      rw [if_pos (by omega)]
    · have hm : 10 ≤ m := by
        by_contra hlt
        rw [decimal_digits_lt_ten m (by omega), decimal_digits_length_ge_ten n hn] at hlen
        have := decimal_digits_length_pos (n / 10)
        simp only [List.length_singleton] at hlen
        omega
      have hlen2 : (decimal_digits (m / 10)).length = (decimal_digits (n / 10)).length := by
        rw [decimal_digits_length_ge_ten n hn, decimal_digits_length_ge_ten m hm] at hlen
        omega
      rw [decimal_digits_ge_ten n hn, decimal_digits_ge_ten m hm]
      rcases Nat.lt_or_ge (m / 10) (n / 10) with hq | hq
      · exact first_diff_append_of_some _ _ _ _ (-1) (ih (n / 10) (by omega) (m / 10) hq hlen2)
      · have heq : m / 10 = n / 10 := by
          have := Nat.div_le_div_right (c := 10) (Nat.le_of_lt hmn)
          omega
        rw [heq, first_diff_append_left]
        simp only [first_diff]
        rw [if_pos (by omega)]

theorem compare_of_first_diff_some (a b : string) (hlen : a.length = b.length) (r : Int)
    (h : first_diff a b = some r) : compare a b = some r := by
  have hne : a ≠ b := by
    intro hab
    rw [hab, first_diff_self] at h
    simp at h
  unfold compare
  rw [if_neg hne, compare_general_eq, if_neg (by omega), if_neg (by omega), h]

theorem compare_decimal_digits_lt (m n : Nat) (h : m < n) :
    compare (decimal_digits m) (decimal_digits n) = some (-1) := by
  rcases Nat.lt_or_ge (decimal_digits m).length (decimal_digits n).length with hl | hl
  · exact compare_of_length_lt _ _ hl
  · have hle := decimal_digits_length_mono n m (Nat.le_of_lt h)
    have heq : (decimal_digits m).length = (decimal_digits n).length := by omega
    exact compare_of_first_diff_some _ _ heq (-1) (first_diff_decimal_digits n m h heq)

theorem itom_t_nat (sgn : Bool) (n : Nat) (h : (n : Int) ≤ INTMAX_MAX) :
    itom_t sgn n = some (decimal_digits n) := by
  rw [itom_t_of_gt_min sgn n (by unfold INTMAX_MIN; omega) h]
  unfold canonical_decimal
  rw [if_neg (by omega)]
  simp

/-- C20: for `0 <= x, y <= INTMAX_MAX`, `compare(itom_v<x>, itom_v<y>)` is `-1`
if `x < y`, `0` if `x == y` and `1` if `x > y`. -/
theorem compare_itom_v (char_signed : Bool) (x y : Int) (hx0 : 0 ≤ x) (hx : x ≤ INTMAX_MAX)
    (hy0 : 0 ≤ y) (hy : y ≤ INTMAX_MAX) :
    ∃ a b : string, itom_v char_signed x = some a ∧ itom_v char_signed y = some b ∧
      compare a b = some (if x < y then -1 else if x = y then 0 else 1) := by
  obtain ⟨m, rfl⟩ : ∃ m : Nat, x = (m : Int) := ⟨x.toNat, by omega⟩
  obtain ⟨n, rfl⟩ : ∃ n : Nat, y = (n : Int) := ⟨y.toNat, by omega⟩
  refine ⟨decimal_digits m, decimal_digits n, itom_t_nat char_signed m hx,
    itom_t_nat char_signed n hy, ?_⟩
  rcases Nat.lt_trichotomy m n with h | h | h
  · rw [if_pos (by omega)]
    exact compare_decimal_digits_lt m n h
  · subst h
    rw [if_neg (by omega), if_pos rfl]
    unfold compare
    rw [if_pos rfl]
  · rw [if_neg (by omega), if_neg (by omega)]
    have := compare_swap _ _ (-1) (compare_decimal_digits_lt n m h)
    simpa using this

/-- C20 at concrete values: `compare(itom_v<19>, itom_v<21>)` is `-1` and
`compare(itom_v<100>, itom_v<99>)` is `1`. -/
theorem compare_itom_v_examples :
    (∃ a b : string, itom_v true 19 = some a ∧ itom_v true 21 = some b ∧
      compare a b = some (-1)) ∧
    (∃ a b : string, itom_v true 100 = some a ∧ itom_v true 99 = some b ∧
      compare a b = some 1) :=
  ⟨compare_itom_v true 19 21 (by decide) (by decide) (by decide) (by decide),
   compare_itom_v true 100 99 (by decide) (by decide) (by decide) (by decide)⟩

end metastring
